import Mathlib

/-!
Verification of the shadelang bytecode compiler (`src/shadelang/compiler.rs`):
a shallow embedding of the code generator, symbol allocator and instruction
encoding, together with theorems about the properties the compiler is
documented to satisfy.

Machine integers are modelled as `Nat` with explicit `% 2^16` / `% 2^32`
truncation where the source performs an `as u16` / `u32` cast.  The Rust
`HashMap` tables are modelled as association lists where a later `insert`
shadows an earlier binding with the same key; lookups observe exactly the
`HashMap` semantics (most recent insert wins).  A Rust `panic!` / `unwrap()`
unwind is modelled as `Except.error` carrying the panic kind and the state of
the by-reference `VMProgram` at the moment of the panic.
-/

namespace Shadelang

/-- Modelled from the spec: `ast.rs` is not among the sources.  Declared type
kinds of parameters ("e.g. 32-bit float, 3-component vector"). -/
inductive TypeKind where
  | F32
  | Vec3
  deriving DecidableEq, Repr

/-- Modelled from the spec: binary operators of the expression language
(add/sub/mul/div), as matched by `generate_expr`. -/
inductive BinaryOperator where
  | Add
  | Sub
  | Mul
  | Div
  deriving DecidableEq, Repr

/-- Modelled from the spec: unary operators; only arithmetic negation is
lowered by the generator. -/
inductive UnaryOperator where
  | Sub
  deriving DecidableEq, Repr

/-- Modelled from the spec: numeric literals.  The decimal literal carries the
32-bit IEEE-754 bit pattern of the `f32` value (the compiler only ever
reinterprets the bits, so the payload is kept as the raw pattern). -/
inductive Literal where
  | DecimalLiteral (bits : Nat)
  deriving DecidableEq, Repr

/-- Modelled from the spec: expressions — binary operation, unary operation,
function call, literal, symbol reference.  Source spans (`Spanned`) carry no
semantic content for code generation and are dropped. -/
inductive Expr where
  | BinaryOp (op : BinaryOperator) (e1 e2 : Expr)
  | FuncCall (id : String) (args : List Expr)
  | Literal (l : Literal)
  | Symbol (s : String)
  | UnaryOp (op : UnaryOperator) (rhs : Expr)
  deriving Repr

/-- Modelled from the spec: statements — assignment (target name, expression)
or return (expression). -/
inductive Statement where
  | Assignment (i : String) (expr : Expr)
  | Return (expr : Expr)
  deriving Repr

/-- Modelled from the spec: a parameter declaration, name plus type kind. -/
structure Param where
  ident : String
  type_kind : TypeKind
  deriving Repr

/-- Modelled from the spec: a function, name plus ordered statements. -/
structure Function where
  ident : String
  statements : List Statement
  deriving Repr

/-- Modelled from the spec: a program — ordered in-parameters,
out-parameters and functions. -/
structure Program where
  in_parameters : List Param
  out_parameters : List Param
  functions : List Function
  deriving Repr

/-- The opcode vocabulary of `compiler.rs` (`#[repr(u16)] pub enum OpCode`),
discriminants assigned 0, 1, 2, ... in declaration order. -/
inductive OpCode where
  | AddI32
  | SubI32
  | MulI32
  | DivI32
  | AddF32
  | SubF32
  | MulF32
  | DivF32
  | ConstF32
  | Void
  | Mov4
  | Load4
  | Mov4Global
  | Load4Global
  | Ret
  | Call
  | Jmp
  | JmpIf
  deriving DecidableEq, Repr

/-- The `repr(u16)` discriminant of an opcode (`inst as u16`). -/
def opTag : OpCode → Nat
  | .AddI32 => 0
  | .SubI32 => 1
  | .MulI32 => 2
  | .DivI32 => 3
  | .AddF32 => 4
  | .SubF32 => 5
  | .MulF32 => 6
  | .DivF32 => 7
  | .ConstF32 => 8
  | .Void => 9
  | .Mov4 => 10
  | .Load4 => 11
  | .Mov4Global => 12
  | .Load4Global => 13
  | .Ret => 14
  | .Call => 15
  | .Jmp => 16
  | .JmpIf => 17

/-- Partial inverse of `opTag`: the source decodes with an unchecked
`transmute(self.data as u16)`; a tag outside the enum range is undefined
behaviour there and decodes to `none` here. -/
def tagToOp : Nat → Option OpCode
  | 0 => some .AddI32
  | 1 => some .SubI32
  | 2 => some .MulI32
  | 3 => some .DivI32
  | 4 => some .AddF32
  | 5 => some .SubF32
  | 6 => some .MulF32
  | 7 => some .DivF32
  | 8 => some .ConstF32
  | 9 => some .Void
  | 10 => some .Mov4
  | 11 => some .Load4
  | 12 => some .Mov4Global
  | 13 => some .Load4Global
  | 14 => some .Ret
  | 15 => some .Call
  | 16 => some .Jmp
  | 17 => some .JmpIf
  | _ => none

/-- One 32-bit cell of the instruction stream (`pub struct MemoryCell`). -/
structure MemoryCell where
  data : Nat
  deriving DecidableEq, Repr

/-- `MemoryCell::raw`: a raw 32-bit word (used for inline float bit
patterns). -/
def MemoryCell.raw (data : Nat) : MemoryCell :=
  ⟨data⟩

/-- `MemoryCell::plain_inst`: `inst as u16 as u32` — the opcode tag alone,
immediate zero. -/
def MemoryCell.plain_inst (inst : OpCode) : MemoryCell :=
  ⟨opTag inst⟩

/-- `MemoryCell::with_data`: `(inst as u16 as u32) | ((data as u32) << 16)`.
`data` is a `u16` in the source, so it is below 2^16 and the bitwise or of
the disjoint halves is plain addition: tag in bits 0–15, immediate in bits
16–31. -/
def MemoryCell.with_data (inst : OpCode) (data : Nat) : MemoryCell :=
  ⟨opTag inst + data * 65536⟩

/-- `MemoryCell::get_inst`: split the word into
`(transmute(data as u16), (data >> 16) as u16)`. -/
def MemoryCell.get_inst (c : MemoryCell) : Option OpCode × Nat :=
  (tagToOp (c.data % 65536), c.data / 65536 % 65536)

lemma opTag_lt (op : OpCode) : opTag op < 65536 := by
  cases op <;> simp [opTag]

lemma tagToOp_opTag (op : OpCode) : tagToOp (opTag op) = some op := by
  cases op <;> rfl

/-- **C1.** Encoding with `with_data` places the opcode tag in bits 0–15 and
the 16-bit immediate in bits 16–31 of the 32-bit word; `get_inst` decodes the
word back to exactly `(op, d)`; a `plain_inst` word decodes with immediate
`0`. -/
theorem with_data_get_inst_roundtrip (op : OpCode) (d : Nat) (hd : d < 65536) :
    (MemoryCell.with_data op d).data % 65536 = opTag op
    ∧ (MemoryCell.with_data op d).data / 65536 = d
    ∧ MemoryCell.get_inst (MemoryCell.with_data op d) = (some op, d)
    ∧ MemoryCell.get_inst (MemoryCell.plain_inst op) = (some op, 0) := by
  have ht := opTag_lt op
  have hlow : (opTag op + d * 65536) % 65536 = opTag op := by
    rw [Nat.add_mul_mod_self_right, Nat.mod_eq_of_lt ht]
  have hhigh : (opTag op + d * 65536) / 65536 = d := by
    rw [Nat.add_mul_div_right _ _ (by norm_num : 0 < 65536),
      Nat.div_eq_of_lt ht, Nat.zero_add]
  refine ⟨hlow, hhigh, ?_, ?_⟩
  · simp only [MemoryCell.get_inst, MemoryCell.with_data, hlow, hhigh,
      tagToOp_opTag, Nat.mod_eq_of_lt hd]
  · simp only [MemoryCell.get_inst, MemoryCell.plain_inst,
      Nat.mod_eq_of_lt ht, Nat.div_eq_of_lt ht, tagToOp_opTag, Nat.zero_mod]

/-- Witness for C1 at a concrete opcode and immediate. -/
theorem with_data_get_inst_roundtrip_witness :
    (MemoryCell.with_data OpCode.Mov4Global 5).data % 65536 = opTag OpCode.Mov4Global
    ∧ (MemoryCell.with_data OpCode.Mov4Global 5).data / 65536 = 5
    ∧ MemoryCell.get_inst (MemoryCell.with_data OpCode.Mov4Global 5) = (some OpCode.Mov4Global, 5)
    ∧ MemoryCell.get_inst (MemoryCell.plain_inst OpCode.Mov4Global) = (some OpCode.Mov4Global, 0) :=
  with_data_get_inst_roundtrip OpCode.Mov4Global 5 (by norm_num)

/-- `pub struct SymbolMeta`: offset, storage class, type kind. -/
structure SymbolMeta where
  offset : Nat
  is_static : Bool
  type_kind : TypeKind
  deriving DecidableEq, Repr

/-- Association-list model of the Rust `HashMap` tables.  `insert` conses at
the head, so a later binding shadows an earlier one with the same key,
exactly as `HashMap::insert` overwrites; `tableGet` models `HashMap::get`. -/
def tableGet {α : Type} : List (String × α) → String → Option α
  | [], _ => none
  | (k, v) :: rest, x => if x = k then some v else tableGet rest x

/-- `pub struct FuncMeta`: entry address plus the local-symbol table. -/
structure FuncMeta where
  address : Nat
  symbols : List (String × SymbolMeta)
  deriving DecidableEq, Repr

/-- `FuncMeta::new`: empty local table at the given address. -/
def FuncMeta.new (address : Nat) : FuncMeta :=
  ⟨address, []⟩

/-- `pub struct ProgramData`. -/
structure ProgramData where
  functions : List (String × FuncMeta)
  global_symbols : List (String × SymbolMeta)
  min_stack_size : Nat
  static_section_size : Nat
  deriving DecidableEq, Repr

/-- `ProgramData::new`. -/
def ProgramData.new : ProgramData :=
  ⟨[], [], 0, 0⟩

/-- `pub struct VMProgram`: instruction stream plus metadata. -/
structure VMProgram where
  code : List MemoryCell
  data : ProgramData
  deriving DecidableEq, Repr

/-- `VMProgram::new`. -/
def VMProgram.new : VMProgram :=
  ⟨[], ProgramData.new⟩

/-- `program.code.push(c)`: append one cell to the instruction stream. -/
def VMProgram.push (p : VMProgram) (c : MemoryCell) : VMProgram :=
  { p with code := p.code ++ [c] }

/-- The kinds of `panic!` / `unwrap` / `unimplemented!` aborts the generator
can take. -/
inductive PanicKind where
  | UnknownSymbol (s : String)
  | UnresolvedFunction (id : String)
  deriving DecidableEq, Repr

/-- A Rust panic, carrying the state of the by-reference `VMProgram` at the
moment of the unwind (the mutations performed before the panic have
happened). -/
structure Panic where
  kind : PanicKind
  program : VMProgram
  deriving DecidableEq, Repr

/-- The opcode chosen for a binary operator (the `match op` inside the
`Expr::BinaryOp` arm of `generate_expr`). -/
def binopOpcode : BinaryOperator → OpCode
  | .Add => OpCode.AddF32
  | .Sub => OpCode.SubF32
  | .Mul => OpCode.MulF32
  | .Div => OpCode.DivF32

/-- Bit pattern of the IEEE-754 single-precision value `-1.0`
(`transmute(-1.0 as f32)` in the unary-negation arm). -/
def negOneF32Bits : Nat := 3212836864

/-- `pub fn generate_expr`: lower one expression, appending to the
instruction stream.  Offsets and addresses are narrowed with `% 65536`
exactly where the source writes `as u16`.  `Expr::FuncCall` ignores its
argument list (arguments are never lowered) and `unwrap`s the function-table
lookup; an unknown symbol is a `panic!`. -/
def generate_expr (program : VMProgram) (ast : Program) (fnc : FuncMeta) (expr : Expr) :
    Except Panic VMProgram :=
  match expr with
  | .BinaryOp op e1 e2 =>
    match generate_expr program ast fnc e1 with
    | .error pa => .error pa
    | .ok p1 =>
      match generate_expr p1 ast fnc e2 with
      | .error pa => .error pa
      | .ok p2 => .ok (p2.push (MemoryCell.plain_inst (binopOpcode op)))
  | .FuncCall id _args =>
    match tableGet program.data.functions id with
    | none => .error ⟨.UnresolvedFunction id, program⟩
    | some fm => .ok (program.push (MemoryCell.with_data .Call (fm.address % 65536)))
  | .Literal l =>
    match l with
    | .DecimalLiteral bits =>
      .ok ((program.push (MemoryCell.plain_inst .ConstF32)).push (MemoryCell.raw bits))
  | .Symbol s =>
    match tableGet fnc.symbols s with
    | some symbol => .ok (program.push (MemoryCell.with_data .Load4 (symbol.offset % 65536)))
    | none =>
      match tableGet program.data.global_symbols s with
      | some symbol =>
        .ok (program.push (MemoryCell.with_data .Load4Global (symbol.offset % 65536)))
      | none => .error ⟨.UnknownSymbol s, program⟩
  | .UnaryOp op rhs =>
    match op with
    | .Sub =>
      match generate_expr program ast fnc rhs with
      | .error pa => .error pa
      | .ok p1 =>
        .ok (((p1.push (MemoryCell.plain_inst .ConstF32)).push
          (MemoryCell.raw negOneF32Bits)).push (MemoryCell.plain_inst .MulF32))

/-- The statement loop of `codegen` (`for s in f.statements.iter()`): threads
the program, the accumulating `func_meta`, the `stack_offset` counter and the
`has_return` flag through the statements of one function. -/
def genStatements (ast : Program) (program : VMProgram) (fnc : FuncMeta)
    (stack_offset : Nat) (has_return : Bool) :
    List Statement → Except Panic (VMProgram × FuncMeta × Nat × Bool)
  | [] => .ok (program, fnc, stack_offset, has_return)
  | s :: rest =>
    match s with
    | .Assignment i expr =>
      match generate_expr program ast fnc expr with
      | .error pa => .error pa
      | .ok p1 =>
        match tableGet p1.data.global_symbols i with
        | some o =>
          genStatements ast
            (p1.push (MemoryCell.with_data .Mov4Global (o.offset % 65536)))
            fnc stack_offset has_return rest
        | none =>
          genStatements ast p1
            { fnc with symbols := (i, ⟨stack_offset, false, .F32⟩) :: fnc.symbols }
            (stack_offset + 4) has_return rest
    | .Return expr =>
      match generate_expr program ast fnc expr with
      | .error pa => .error pa
      | .ok p1 =>
        genStatements ast
          (p1.push (MemoryCell.with_data .Ret (stack_offset % 65536)))
          fnc stack_offset true rest

/-- The per-function body of `codegen`'s `for f in ast.functions.iter()`
loop: fresh `FuncMeta` at the current instruction index, generate the
statements, append the implicit `Void`/`Ret` pair when no return was seen,
then insert the function's metadata into the function table. -/
def genFunction (ast : Program) (program : VMProgram) (f : Function) :
    Except Panic VMProgram :=
  match genStatements ast program (FuncMeta.new program.code.length) 0 false f.statements with
  | .error pa => .error pa
  | .ok (p1, fm, stack_offset, has_return) =>
    let p2 :=
      if has_return then p1
      else (p1.push (MemoryCell.plain_inst .Void)).push
        (MemoryCell.with_data .Ret (stack_offset % 65536))
    .ok { p2 with data := { p2.data with functions := (f.ident, fm) :: p2.data.functions } }

/-- The function loop of `codegen`. -/
def genFunctions (ast : Program) (program : VMProgram) :
    List Function → Except Panic VMProgram
  | [] => .ok program
  | f :: rest =>
    match genFunction ast program f with
    | .error pa => .error pa
    | .ok p1 => genFunctions ast p1 rest

/-- The two parameter loops of `codegen`: insert each parameter into the
global table at the running `static_section` offset, advancing it by 4 per
declaration. -/
def insertParams (globals : List (String × SymbolMeta)) (static_section : Nat) :
    List Param → List (String × SymbolMeta) × Nat
  | [] => (globals, static_section)
  | p :: rest =>
    insertParams ((p.ident, ⟨static_section, true, p.type_kind⟩) :: globals)
      (static_section + 4) rest

/-- `pub fn codegen`: allocate the static section (in-parameters then
out-parameters), generate every function, then record
`static_section_size` and `min_stack_size`. -/
def codegen (ast : Program) : Except Panic VMProgram :=
  let g1 := insertParams VMProgram.new.data.global_symbols 0 ast.in_parameters
  let g2 := insertParams g1.1 g1.2 ast.out_parameters
  let program : VMProgram :=
    { VMProgram.new with data := { VMProgram.new.data with global_symbols := g2.1 } }
  match genFunctions ast program ast.functions with
  | .error pa => .error pa
  | .ok p1 =>
    .ok { p1 with data :=
      { p1.data with static_section_size := g2.2, min_stack_size := g2.2 + 1024 } }

/-- How a whole compilation can fail: the `unwrap`ed folding failure, or a
panic inside code generation. -/
inductive CompileFailure (E : Type) where
  | foldingFailure (e : E)
  | codegenPanic (pa : Panic)

/-- `pub fn compile`.  Modelled from the spec: `constant_folding.rs` is not
among the sources, so the folding pass is an abstract parameter
`fold : Program → Except E Program` ("mutates the syntax tree in place before
code generation; may fail").  The source `unwrap`s the folding result — a
folding failure aborts before `codegen` runs — and then runs `codegen` on the
folded tree. -/
def compile {E : Type} (fold : Program → Except E Program) (ast : Program) :
    Except (CompileFailure E) VMProgram :=
  match fold ast with
  | .error e => .error (.foldingFailure e)
  | .ok folded =>
    match codegen folded with
    | .error pa => .error (.codegenPanic pa)
    | .ok prog => .ok prog

/-- The program state an expression lowering ends in: the result on success,
the state carried by the panic on failure (the `&mut VMProgram` at unwind
time). -/
def stateOf : Except Panic VMProgram → VMProgram
  | .ok p => p
  | .error pa => pa.program

/-- The program state a statement run ends in. -/
def stateOfRun : Except Panic (VMProgram × FuncMeta × Nat × Bool) → VMProgram
  | .ok r => r.1
  | .error pa => pa.program

/-- Expression lowering never touches `program.data`, and only ever appends
to the instruction stream — whether it succeeds or panics. -/
theorem generate_expr_state :
    ∀ (e : Expr) (p : VMProgram) (ast : Program) (fnc : FuncMeta),
      (stateOf (generate_expr p ast fnc e)).data = p.data
      ∧ ∃ t, (stateOf (generate_expr p ast fnc e)).code = p.code ++ t
  | .BinaryOp op e1 e2, p, ast, fnc => by
    simp only [generate_expr]
    split
    · rename_i pa hg1
      have h1 := generate_expr_state e1 p ast fnc
      rw [hg1] at h1
      exact h1
    · rename_i p1 hg1
      have h1 := generate_expr_state e1 p ast fnc
      rw [hg1] at h1
      obtain ⟨hd1, t1, hc1⟩ := h1
      simp only [stateOf] at hd1 hc1
      split
      · rename_i pa hg2
        have h2 := generate_expr_state e2 p1 ast fnc
        rw [hg2] at h2
        obtain ⟨hd2, t2, hc2⟩ := h2
        simp only [stateOf] at hd2 hc2 ⊢
        exact ⟨by rw [hd2, hd1], t1 ++ t2, by rw [hc2, hc1, List.append_assoc]⟩
      · rename_i p2 hg2
        have h2 := generate_expr_state e2 p1 ast fnc
        rw [hg2] at h2
        obtain ⟨hd2, t2, hc2⟩ := h2
        simp only [stateOf, VMProgram.push] at hd2 hc2 ⊢
        refine ⟨by rw [hd2, hd1],
          t1 ++ (t2 ++ [MemoryCell.plain_inst (binopOpcode op)]), ?_⟩
        rw [hc2, hc1]
        simp [List.append_assoc]
  | .FuncCall id args, p, ast, fnc => by
    simp only [generate_expr]
    split
    · exact ⟨rfl, [], by simp [stateOf]⟩
    · rename_i fm h
      exact ⟨rfl, [MemoryCell.with_data .Call (fm.address % 65536)],
        by simp [stateOf, VMProgram.push]⟩
  | .Literal (.DecimalLiteral bits), p, ast, fnc => by
    simp only [generate_expr]
    exact ⟨rfl, [MemoryCell.plain_inst .ConstF32, MemoryCell.raw bits],
      by simp [stateOf, VMProgram.push]⟩
  | .Symbol s, p, ast, fnc => by
    simp only [generate_expr]
    split
    · rename_i symbol h1
      exact ⟨rfl, [MemoryCell.with_data .Load4 (symbol.offset % 65536)],
        by simp [stateOf, VMProgram.push]⟩
    · split
      · rename_i symbol h2
        exact ⟨rfl, [MemoryCell.with_data .Load4Global (symbol.offset % 65536)],
          by simp [stateOf, VMProgram.push]⟩
      · exact ⟨rfl, [], by simp [stateOf]⟩
  | .UnaryOp .Sub rhs, p, ast, fnc => by
    simp only [generate_expr]
    split
    · rename_i pa hg1
      have h1 := generate_expr_state rhs p ast fnc
      rw [hg1] at h1
      exact h1
    · rename_i p1 hg1
      have h1 := generate_expr_state rhs p ast fnc
      rw [hg1] at h1
      obtain ⟨hd1, t1, hc1⟩ := h1
      simp only [stateOf, VMProgram.push] at hd1 hc1 ⊢
      refine ⟨hd1, t1 ++ [MemoryCell.plain_inst .ConstF32, MemoryCell.raw negOneF32Bits,
        MemoryCell.plain_inst .MulF32], ?_⟩
      rw [hc1]
      simp [List.append_assoc]

/-- Running a statement list never touches `program.data`, and only ever
appends to the instruction stream — whether it succeeds or panics. -/
theorem genStatements_state :
    ∀ (stmts : List Statement) (ast : Program) (p : VMProgram) (fnc : FuncMeta)
      (so : Nat) (hr : Bool),
      (stateOfRun (genStatements ast p fnc so hr stmts)).data = p.data
      ∧ ∃ t, (stateOfRun (genStatements ast p fnc so hr stmts)).code = p.code ++ t := by
  intro stmts
  induction stmts with
  | nil => exact fun ast p fnc so hr => ⟨rfl, [], by simp [stateOfRun, genStatements]⟩
  | cons s rest ih =>
    intro ast p fnc so hr
    cases s with
    | Assignment i expr =>
      simp only [genStatements]
      split
      · rename_i pa hg
        have he := generate_expr_state expr p ast fnc
        rw [hg] at he
        exact he
      · rename_i p1 hg
        have he := generate_expr_state expr p ast fnc
        rw [hg] at he
        obtain ⟨hd1, t1, hc1⟩ := he
        simp only [stateOf] at hd1 hc1
        split
        · rename_i o hl
          obtain ⟨hd2, t2, hc2⟩ := ih ast
            (p1.push (MemoryCell.with_data .Mov4Global (o.offset % 65536))) fnc so hr
          refine ⟨by rw [hd2]; simpa [VMProgram.push] using hd1,
            t1 ++ ([MemoryCell.with_data .Mov4Global (o.offset % 65536)] ++ t2), ?_⟩
          rw [hc2]
          simp [VMProgram.push, hc1, List.append_assoc]
        · rename_i hl
          obtain ⟨hd2, t2, hc2⟩ := ih ast p1
            { fnc with symbols := (i, ⟨so, false, .F32⟩) :: fnc.symbols } (so + 4) hr
          exact ⟨by rw [hd2, hd1], t1 ++ t2, by rw [hc2, hc1, List.append_assoc]⟩
    | Return expr =>
      simp only [genStatements]
      split
      · rename_i pa hg
        have he := generate_expr_state expr p ast fnc
        rw [hg] at he
        exact he
      · rename_i p1 hg
        have he := generate_expr_state expr p ast fnc
        rw [hg] at he
        obtain ⟨hd1, t1, hc1⟩ := he
        simp only [stateOf] at hd1 hc1
        obtain ⟨hd2, t2, hc2⟩ := ih ast
          (p1.push (MemoryCell.with_data .Ret (so % 65536))) fnc so true
        refine ⟨by rw [hd2]; simpa [VMProgram.push] using hd1,
          t1 ++ ([MemoryCell.with_data .Ret (so % 65536)] ++ t2), ?_⟩
        rw [hc2]
        simp [VMProgram.push, hc1, List.append_assoc]

/-- Specification-level description of local allocation (from the spec's
words): walking the statements, an assignment whose target is absent from the
globals allocates the next local offset (step 4) and nothing else allocates.
`genStatements` is proved to realise exactly this. -/
def localAllocs (globals : List (String × SymbolMeta)) :
    Nat → List Statement → List (String × SymbolMeta)
  | _, [] => []
  | so, .Assignment i _ :: rest =>
    match tableGet globals i with
    | some _ => localAllocs globals so rest
    | none => (i, ⟨so, false, .F32⟩) :: localAllocs globals (so + 4) rest
  | so, .Return _ :: rest => localAllocs globals so rest

/-- Whether a statement list contains a return statement. -/
def containsReturn : List Statement → Bool
  | [] => false
  | .Return _ :: _ => true
  | .Assignment _ _ :: rest => containsReturn rest

/-- Successful statement runs realise the specification-level allocation:
the function's address never changes, the local table gains exactly the
`localAllocs` bindings (most recent first), the stack offset advances by 4
per allocation, and the return flag records whether a return statement was
seen. -/
theorem genStatements_run :
    ∀ (stmts : List Statement) (ast : Program) (p : VMProgram) (fnc : FuncMeta)
      (so : Nat) (hr : Bool) (p' : VMProgram) (fm' : FuncMeta) (so' : Nat) (hr' : Bool),
      genStatements ast p fnc so hr stmts = .ok (p', fm', so', hr') →
      fm'.address = fnc.address
      ∧ fm'.symbols = (localAllocs p.data.global_symbols so stmts).reverse ++ fnc.symbols
      ∧ so' = so + 4 * (localAllocs p.data.global_symbols so stmts).length
      ∧ hr' = (hr || containsReturn stmts) := by
  intro stmts
  induction stmts with
  | nil =>
    intro ast p fnc so hr p' fm' so' hr' hok
    simp only [genStatements, Except.ok.injEq, Prod.mk.injEq] at hok
    obtain ⟨hp, hf, hs, hh⟩ := hok
    subst hp hf hs hh
    simp [localAllocs, containsReturn]
  | cons s rest ih =>
    intro ast p fnc so hr p' fm' so' hr' hok
    cases s with
    | Assignment i expr =>
      simp only [genStatements] at hok
      split at hok
      · simp at hok
      · rename_i p1 hg
        have hd1 := (generate_expr_state expr p ast fnc).1
        rw [hg] at hd1
        simp only [stateOf] at hd1
        split at hok
        · rename_i o hl
          obtain ⟨ha, hs, hso, hhr⟩ := ih ast
            (p1.push (MemoryCell.with_data .Mov4Global (o.offset % 65536)))
            fnc so hr p' fm' so' hr' hok
          rw [hd1] at hl
          have hglob : (p1.push (MemoryCell.with_data .Mov4Global (o.offset % 65536))).data.global_symbols
              = p.data.global_symbols := by
            simp [VMProgram.push, hd1]
          rw [hglob] at hs hso
          refine ⟨ha, ?_, ?_, hhr⟩
          · rw [hs]
            simp [localAllocs, hl]
          · rw [hso]
            simp [localAllocs, hl]
        · rename_i hl
          obtain ⟨ha, hs, hso, hhr⟩ := ih ast p1
            { fnc with symbols := (i, ⟨so, false, .F32⟩) :: fnc.symbols }
            (so + 4) hr p' fm' so' hr' hok
          rw [hd1] at hl hs hso
          refine ⟨ha, ?_, ?_, hhr⟩
          · rw [hs]
            simp [localAllocs, hl, List.append_assoc]
          · rw [hso]
            simp only [localAllocs, hl]
            simp [Nat.mul_add, Nat.mul_succ]
            omega
    | Return expr =>
      simp only [genStatements] at hok
      split at hok
      · simp at hok
      · rename_i p1 hg
        have hd1 := (generate_expr_state expr p ast fnc).1
        rw [hg] at hd1
        simp only [stateOf] at hd1
        obtain ⟨ha, hs, hso, hhr⟩ := ih ast
          (p1.push (MemoryCell.with_data .Ret (so % 65536))) fnc so true p' fm' so' hr' hok
        have hglob : (p1.push (MemoryCell.with_data .Ret (so % 65536))).data.global_symbols
            = p.data.global_symbols := by
          simp [VMProgram.push, hd1]
        rw [hglob] at hs hso
        refine ⟨ha, ?_, ?_, ?_⟩
        · rw [hs]
          simp [localAllocs]
        · rw [hso]
          simp [localAllocs]
        · rw [hhr]
          simp [containsReturn]

/-- The static-section counter after inserting a parameter list advances by
4 per declaration. -/
theorem insertParams_snd :
    ∀ (ps : List Param) (g : List (String × SymbolMeta)) (s : Nat),
      (insertParams g s ps).2 = s + 4 * ps.length := by
  intro ps
  induction ps with
  | nil => intro g s; simp [insertParams]
  | cons p rest ih =>
    intro g s
    rw [insertParams, ih]
    simp [List.length_cons]
    omega

/-- Inserting parameters none of which is named `x` leaves lookups of `x`
unchanged. -/
theorem insertParams_skip :
    ∀ (ps : List Param) (g : List (String × SymbolMeta)) (s : Nat) (x : String),
      x ∉ ps.map Param.ident →
      tableGet (insertParams g s ps).1 x = tableGet g x := by
  intro ps
  induction ps with
  | nil => intro g s x _; rfl
  | cons p rest ih =>
    intro g s x hx
    simp only [List.map_cons, List.mem_cons, not_or] at hx
    rw [insertParams, ih _ _ _ hx.2]
    simp [tableGet, hx.1]

/-- With pairwise-distinct names, the `i`-th inserted parameter resolves to
offset `s + 4 i` with its declared type kind, marked static. -/
theorem insertParams_lookup :
    ∀ (ps : List Param), (ps.map Param.ident).Nodup →
      ∀ (i : Nat) (hi : i < ps.length) (g : List (String × SymbolMeta)) (s : Nat),
        tableGet (insertParams g s ps).1 (ps.get ⟨i, hi⟩).ident
          = some ⟨s + 4 * i, true, (ps.get ⟨i, hi⟩).type_kind⟩ := by
  intro ps
  induction ps with
  | nil => intro _ i hi; simp at hi
  | cons p rest ih =>
    intro hnd i hi g s
    simp only [List.map_cons, List.nodup_cons] at hnd
    cases i with
    | zero =>
      simp only [List.get]
      rw [insertParams, insertParams_skip rest _ _ _ hnd.1]
      simp [tableGet]
    | succ j =>
      simp only [List.get]
      rw [insertParams, ih hnd.2 j (by simpa using hi) _ (s + 4)]
      congr 2
      omega

/-- Generating one function adds exactly one entry to the function table and
touches no other metadata. -/
theorem genFunction_data (ast : Program) (p : VMProgram) (f : Function) (p' : VMProgram)
    (hok : genFunction ast p f = .ok p') :
    p'.data.global_symbols = p.data.global_symbols
    ∧ p'.data.static_section_size = p.data.static_section_size
    ∧ p'.data.min_stack_size = p.data.min_stack_size
    ∧ ∃ fm, p'.data.functions = (f.ident, fm) :: p.data.functions := by
  simp only [genFunction] at hok
  split at hok
  · simp at hok
  · rename_i p1 fm so hret heq
    have hd1 := (genStatements_state f.statements ast p (FuncMeta.new p.code.length) 0 false).1
    rw [heq] at hd1
    simp only [stateOfRun] at hd1
    simp only [Except.ok.injEq] at hok
    subst hok
    cases hret <;> simp [VMProgram.push, hd1]

/-- Generating a list of functions preserves the global table and the size
fields. -/
theorem genFunctions_data :
    ∀ (fs : List Function) (ast : Program) (p : VMProgram) (p' : VMProgram),
      genFunctions ast p fs = .ok p' →
      p'.data.global_symbols = p.data.global_symbols
      ∧ p'.data.static_section_size = p.data.static_section_size
      ∧ p'.data.min_stack_size = p.data.min_stack_size := by
  intro fs
  induction fs with
  | nil =>
    intro ast p p' hok
    simp only [genFunctions, Except.ok.injEq] at hok
    subst hok
    exact ⟨rfl, rfl, rfl⟩
  | cons f rest ih =>
    intro ast p p' hok
    simp only [genFunctions] at hok
    split at hok
    · simp at hok
    · rename_i p1 heq
      obtain ⟨h1, h2, h3, _⟩ := genFunction_data ast p f p1 heq
      obtain ⟨h4, h5, h6⟩ := ih ast p1 p' hok
      exact ⟨h4.trans h1, h5.trans h2, h6.trans h3⟩

/-- **C2.** For a program with in-parameters `P1..Pn` and out-parameters
`Q1..Qm` (all names distinct), a successful `codegen` assigns global offsets
`0, 4, ..., 4(n-1)` to the in-parameters in declaration order, then
`4n, ..., 4(n+m-1)` to the out-parameters in declaration order, and sets
`static_section_size = 4(n+m)`. -/
theorem global_offsets (ast : Program) (prog : VMProgram)
    (hnd : ((ast.in_parameters ++ ast.out_parameters).map Param.ident).Nodup)
    (hok : codegen ast = .ok prog) :
    (∀ (i : Nat) (hi : i < ast.in_parameters.length),
       tableGet prog.data.global_symbols (ast.in_parameters.get ⟨i, hi⟩).ident
         = some ⟨4 * i, true, (ast.in_parameters.get ⟨i, hi⟩).type_kind⟩)
    ∧ (∀ (j : Nat) (hj : j < ast.out_parameters.length),
       tableGet prog.data.global_symbols (ast.out_parameters.get ⟨j, hj⟩).ident
         = some ⟨4 * ast.in_parameters.length + 4 * j, true,
             (ast.out_parameters.get ⟨j, hj⟩).type_kind⟩)
    ∧ prog.data.static_section_size
        = 4 * (ast.in_parameters.length + ast.out_parameters.length) := by
  rw [List.map_append] at hnd
  have hndin : (ast.in_parameters.map Param.ident).Nodup := hnd.of_append_left
  have hndout : (ast.out_parameters.map Param.ident).Nodup := hnd.of_append_right
  have hdisj : (ast.in_parameters.map Param.ident).Disjoint (ast.out_parameters.map Param.ident) :=
    List.disjoint_of_nodup_append hnd
  simp only [codegen] at hok
  split at hok
  · simp at hok
  · rename_i p1 heq
    simp only [Except.ok.injEq] at hok
    subst hok
    obtain ⟨hg, _, _⟩ := genFunctions_data ast.functions ast _ p1 heq
    refine ⟨?_, ?_, ?_⟩
    · intro i hi
      simp only [hg]
      rw [insertParams_skip _ _ _ _ (fun hmem => hdisj
        (List.mem_map_of_mem Param.ident (List.get_mem ast.in_parameters i hi)) hmem)]
      have := insertParams_lookup ast.in_parameters hndin i hi
        VMProgram.new.data.global_symbols 0
      rw [this]
      congr 2
      omega
    · intro j hj
      simp only [hg]
      have := insertParams_lookup ast.out_parameters hndout j hj
        (insertParams VMProgram.new.data.global_symbols 0 ast.in_parameters).1
        (insertParams VMProgram.new.data.global_symbols 0 ast.in_parameters).2
      rw [this, insertParams_snd]
      congr 2
      omega
    · simp only [insertParams_snd]
      omega

/-- A concrete two-parameter program used as the C2 witness input. -/
def paramsProgram : Program :=
  { in_parameters := [⟨"x", .F32⟩], out_parameters := [⟨"y", .Vec3⟩], functions := [] }

/-- Witness for C2: one in-parameter and one out-parameter. -/
theorem global_offsets_witness :
    tableGet (stateOf (codegen paramsProgram)).data.global_symbols "y"
      = some ⟨4, true, .Vec3⟩ := by
  have h := global_offsets paramsProgram (stateOf (codegen paramsProgram))
    (by decide) (by rfl)
  simpa using h.2.1 0 (by decide)

/-- **C6.** For every successfully compiled program the reported minimum
stack size equals the static section size plus 1024. -/
theorem min_stack_size_eq (ast : Program) (prog : VMProgram)
    (hok : codegen ast = .ok prog) :
    prog.data.min_stack_size = prog.data.static_section_size + 1024 := by
  simp only [codegen] at hok
  split at hok
  · simp at hok
  · simp only [Except.ok.injEq] at hok
    subst hok
    rfl

/-- Witness for C6 at a concrete program. -/
theorem min_stack_size_eq_witness :
    (stateOf (codegen paramsProgram)).data.min_stack_size
      = (stateOf (codegen paramsProgram)).data.static_section_size + 1024 :=
  min_stack_size_eq paramsProgram (stateOf (codegen paramsProgram)) (by rfl)

/-- The single load cell a symbol reference lowers to: local table first,
then global table (the resolution order of the `Expr::Symbol` arm). -/
def loadCellFor (fnc : FuncMeta) (globals : List (String × SymbolMeta)) (s : String) :
    Option MemoryCell :=
  match tableGet fnc.symbols s with
  | some symbol => some (MemoryCell.with_data .Load4 (symbol.offset % 65536))
  | none =>
    match tableGet globals s with
    | some symbol => some (MemoryCell.with_data .Load4Global (symbol.offset % 65536))
    | none => none

/-- A resolvable symbol reference lowers to exactly its load cell. -/
theorem generate_expr_symbol (p : VMProgram) (ast : Program) (fnc : FuncMeta)
    (s : String) (c : MemoryCell)
    (h : loadCellFor fnc p.data.global_symbols s = some c) :
    generate_expr p ast fnc (.Symbol s) = .ok (p.push c) := by
  simp only [loadCellFor] at h
  cases hl : tableGet fnc.symbols s with
  | some m =>
    rw [hl] at h
    simp only [Option.some.injEq] at h
    subst h
    simp [generate_expr, hl]
  | none =>
    rw [hl] at h
    cases hg : tableGet p.data.global_symbols s with
    | some m =>
      rw [hg] at h
      simp only [Option.some.injEq] at h
      subst h
      simp [generate_expr, hl, hg]
    | none =>
      rw [hg] at h
      simp at h

/-- Reduction of the binary-operation arm once both operand lowerings are
known. -/
theorem generate_expr_binop (p : VMProgram) (ast : Program) (fnc : FuncMeta)
    (op : BinaryOperator) (e1 e2 : Expr) (p1 p2 : VMProgram)
    (hg1 : generate_expr p ast fnc e1 = .ok p1)
    (hg2 : generate_expr p1 ast fnc e2 = .ok p2) :
    generate_expr p ast fnc (.BinaryOp op e1 e2)
      = .ok (p2.push (MemoryCell.plain_inst (binopOpcode op))) := by
  simp only [generate_expr, hg1, hg2]

/-- Reduction of a return statement once the expression lowering is known. -/
theorem genStatements_return (ast : Program) (p : VMProgram) (fnc : FuncMeta)
    (so : Nat) (hr : Bool) (e : Expr) (rest : List Statement) (p1 : VMProgram)
    (hg : generate_expr p ast fnc e = .ok p1) :
    genStatements ast p fnc so hr (.Return e :: rest)
      = genStatements ast (p1.push (MemoryCell.with_data .Ret (so % 65536))) fnc so true rest := by
  simp only [genStatements, hg]

/-- Reduction of an assignment whose target resolves to a global. -/
theorem genStatements_assign_global (ast : Program) (p : VMProgram) (fnc : FuncMeta)
    (so : Nat) (hr : Bool) (i : String) (e : Expr) (rest : List Statement)
    (p1 : VMProgram) (o : SymbolMeta)
    (hg : generate_expr p ast fnc e = .ok p1)
    (hl : tableGet p1.data.global_symbols i = some o) :
    genStatements ast p fnc so hr (.Assignment i e :: rest)
      = genStatements ast (p1.push (MemoryCell.with_data .Mov4Global (o.offset % 65536)))
          fnc so hr rest := by
  simp only [genStatements, hg, hl]

/-- Reduction of an assignment whose target is absent from the globals. -/
theorem genStatements_assign_local (ast : Program) (p : VMProgram) (fnc : FuncMeta)
    (so : Nat) (hr : Bool) (i : String) (e : Expr) (rest : List Statement)
    (p1 : VMProgram)
    (hg : generate_expr p ast fnc e = .ok p1)
    (hl : tableGet p1.data.global_symbols i = none) :
    genStatements ast p fnc so hr (.Assignment i e :: rest)
      = genStatements ast p1
          { fnc with symbols := (i, ⟨so, false, .F32⟩) :: fnc.symbols } (so + 4) hr rest := by
  simp only [genStatements, hg, hl]

/-- **C3.** An assignment to a name present in the global table first lowers
the right-hand side and then emits one `Mov4Global` store carrying that
global's offset, leaving the local table and the stack offset unchanged; an
assignment to a name absent from the globals emits no store, binds the name
to the current stack offset as a fresh local, and advances the offset by 4 —
and over a whole statement list the allocated locals are exactly the
assignments whose targets are absent from the globals, at offsets
`so, so+4, so+8, ...` in order. -/
theorem assignment_lowering :
    (∀ (p : VMProgram) (ast : Program) (fnc : FuncMeta) (so : Nat) (hr : Bool)
       (i : String) (e : Expr) (p1 : VMProgram) (o : SymbolMeta),
       generate_expr p ast fnc e = .ok p1 →
       tableGet p1.data.global_symbols i = some o →
       genStatements ast p fnc so hr [.Assignment i e]
         = .ok (p1.push (MemoryCell.with_data .Mov4Global (o.offset % 65536)), fnc, so, hr))
    ∧ (∀ (p : VMProgram) (ast : Program) (fnc : FuncMeta) (so : Nat) (hr : Bool)
       (i : String) (e : Expr) (p1 : VMProgram),
       generate_expr p ast fnc e = .ok p1 →
       tableGet p1.data.global_symbols i = none →
       genStatements ast p fnc so hr [.Assignment i e]
         = .ok (p1, { fnc with symbols := (i, ⟨so, false, .F32⟩) :: fnc.symbols }, so + 4, hr))
    ∧ (∀ (stmts : List Statement) (ast : Program) (p : VMProgram) (fnc : FuncMeta)
       (so : Nat) (hr : Bool) (p' : VMProgram) (fm' : FuncMeta) (so' : Nat) (hr' : Bool),
       genStatements ast p fnc so hr stmts = .ok (p', fm', so', hr') →
       fm'.symbols = (localAllocs p.data.global_symbols so stmts).reverse ++ fnc.symbols
       ∧ so' = so + 4 * (localAllocs p.data.global_symbols so stmts).length) := by
  refine ⟨?_, ?_, ?_⟩
  · intro p ast fnc so hr i e p1 o hg hl
    rw [genStatements_assign_global ast p fnc so hr i e [] p1 o hg hl]
    rfl
  · intro p ast fnc so hr i e p1 hg hl
    rw [genStatements_assign_local ast p fnc so hr i e [] p1 hg hl]
    rfl
  · intro stmts ast p fnc so hr p' fm' so' hr' hok
    obtain ⟨_, hs, hso, _⟩ := genStatements_run stmts ast p fnc so hr p' fm' so' hr' hok
    exact ⟨hs, hso⟩

/-- A concrete one-global program state for the C3 witness. -/
def globalG : VMProgram :=
  { code := [],
    data := { functions := [],
              global_symbols := [("g", ⟨0, true, .F32⟩)],
              min_stack_size := 0,
              static_section_size := 0 } }

/-- The empty syntax tree (the `ast` argument is only threaded through). -/
def emptyAst : Program := ⟨[], [], []⟩

/-- Witness for C3: assigning a literal to the global `g` stores through
`Mov4Global 0`; the same assignment to the fresh name `l` allocates local
offset 0 and stores nothing. -/
theorem assignment_lowering_witness :
    genStatements emptyAst globalG (FuncMeta.new 0) 0 false
      [.Assignment "g" (.Literal (.DecimalLiteral 7))]
      = .ok ((stateOf (generate_expr globalG emptyAst (FuncMeta.new 0)
            (.Literal (.DecimalLiteral 7)))).push
          (MemoryCell.with_data .Mov4Global (0 % 65536)), FuncMeta.new 0, 0, false)
    ∧ genStatements emptyAst globalG (FuncMeta.new 0) 0 false
      [.Assignment "l" (.Literal (.DecimalLiteral 7))]
      = .ok (stateOf (generate_expr globalG emptyAst (FuncMeta.new 0)
            (.Literal (.DecimalLiteral 7))),
          { FuncMeta.new 0 with symbols := [("l", ⟨0, false, .F32⟩)] }, 0 + 4, false) :=
  ⟨assignment_lowering.1 globalG emptyAst (FuncMeta.new 0) 0 false "g"
      (.Literal (.DecimalLiteral 7)) _ ⟨0, true, .F32⟩ (by rfl) (by rfl),
   assignment_lowering.2.1 globalG emptyAst (FuncMeta.new 0) 0 false "l"
      (.Literal (.DecimalLiteral 7)) _ (by rfl) (by rfl)⟩

/-- **C4.** A function whose statement list contains no return statement gets
exactly two instructions appended after its statements: the `Void` push
followed by `Ret` whose immediate is the function's accumulated local size —
4 bytes per local allocated in the function. -/
theorem implicit_return (ast : Program) (p : VMProgram) (f : Function) (p2 : VMProgram)
    (hok : genFunction ast p f = .ok p2)
    (hnr : containsReturn f.statements = false) :
    ∃ p1 fm so,
      genStatements ast p (FuncMeta.new p.code.length) 0 false f.statements
        = .ok (p1, fm, so, false)
      ∧ p2.code = p1.code
          ++ [MemoryCell.plain_inst .Void, MemoryCell.with_data .Ret (so % 65536)]
      ∧ so = 4 * (localAllocs p.data.global_symbols 0 f.statements).length := by
  simp only [genFunction] at hok
  split at hok
  · simp at hok
  · rename_i p1 fm so hret heq
    obtain ⟨_, _, hso, hhr⟩ :=
      genStatements_run f.statements ast p (FuncMeta.new p.code.length) 0 false p1 fm so hret heq
    rw [hnr] at hhr
    simp only [Bool.or_false] at hhr
    subst hhr
    simp only [Except.ok.injEq] at hok
    subst hok
    refine ⟨p1, fm, so, heq, ?_, by omega⟩
    simp [VMProgram.push]

/-- A function with an empty body, and a program holding only it, for the C4
witness. -/
def emptyFn : Function := ⟨"f", []⟩

/-- Program consisting of the single empty function. -/
def emptyFnProgram : Program := ⟨[], [], [emptyFn]⟩

/-- Witness for C4: the empty function compiles to exactly `Void` then
`Ret 0`. -/
theorem implicit_return_witness :
    ∃ p1 fm so,
      genStatements emptyFnProgram VMProgram.new
          (FuncMeta.new VMProgram.new.code.length) 0 false emptyFn.statements
        = .ok (p1, fm, so, false)
      ∧ (stateOf (genFunction emptyFnProgram VMProgram.new emptyFn)).code = p1.code
          ++ [MemoryCell.plain_inst .Void, MemoryCell.with_data .Ret (so % 65536)]
      ∧ so = 4 * (localAllocs VMProgram.new.data.global_symbols 0 emptyFn.statements).length :=
  implicit_return emptyFnProgram VMProgram.new emptyFn
    (stateOf (genFunction emptyFnProgram VMProgram.new emptyFn)) (by rfl) (by rfl)

/-- **C5.** Binary operations lower their operands strictly left-to-right,
both operand code sequences preceding the operator's opcode; in particular
`return a - b` with both symbols resolvable emits the load for `a`, the load
for `b`, the `SubF32` opcode and the `Ret` opcode, in that order. -/
theorem binary_op_order :
    (∀ (p : VMProgram) (ast : Program) (fnc : FuncMeta) (op : BinaryOperator)
       (e1 e2 : Expr) (p1 p2 : VMProgram),
       generate_expr p ast fnc e1 = .ok p1 →
       generate_expr p1 ast fnc e2 = .ok p2 →
       generate_expr p ast fnc (.BinaryOp op e1 e2)
         = .ok (p2.push (MemoryCell.plain_inst (binopOpcode op)))
       ∧ ∃ t1 t2, p1.code = p.code ++ t1 ∧ p2.code = p.code ++ t1 ++ t2)
    ∧ (∀ (p : VMProgram) (ast : Program) (fnc : FuncMeta) (so : Nat) (hr : Bool)
       (a b : String) (ca cb : MemoryCell),
       loadCellFor fnc p.data.global_symbols a = some ca →
       loadCellFor fnc p.data.global_symbols b = some cb →
       genStatements ast p fnc so hr [.Return (.BinaryOp .Sub (.Symbol a) (.Symbol b))]
         = .ok ({ p with code := p.code ++ [ca, cb, MemoryCell.plain_inst .SubF32,
             MemoryCell.with_data .Ret (so % 65536)] }, fnc, so, true)) := by
  constructor
  · intro p ast fnc op e1 e2 p1 p2 hg1 hg2
    refine ⟨generate_expr_binop p ast fnc op e1 e2 p1 p2 hg1 hg2, ?_⟩
    have h1 := (generate_expr_state e1 p ast fnc).2
    rw [hg1] at h1
    obtain ⟨t1, hc1⟩ := h1
    have h2 := (generate_expr_state e2 p1 ast fnc).2
    rw [hg2] at h2
    obtain ⟨t2, hc2⟩ := h2
    simp only [stateOf] at hc1 hc2
    exact ⟨t1, t2, hc1, by rw [hc2, hc1, List.append_assoc]⟩
  · intro p ast fnc so hr a b ca cb ha hb
    have ha' := generate_expr_symbol p ast fnc a ca ha
    have hb' := generate_expr_symbol (p.push ca) ast fnc b cb hb
    have hbin := generate_expr_binop p ast fnc .Sub (.Symbol a) (.Symbol b)
      (p.push ca) ((p.push ca).push cb) ha' hb'
    rw [genStatements_return ast p fnc so hr _ []
      (((p.push ca).push cb).push (MemoryCell.plain_inst (binopOpcode .Sub))) hbin]
    simp [genStatements, VMProgram.push, binopOpcode]

/-- Function-local table binding `a` and `b` for the C5 witness. -/
def abLocals : FuncMeta :=
  ⟨0, [("a", ⟨0, false, .F32⟩), ("b", ⟨4, false, .F32⟩)]⟩

/-- Witness for C5: `return a - b` over locals `a` (offset 0) and `b`
(offset 4). -/
theorem binary_op_order_witness :
    genStatements emptyAst VMProgram.new abLocals 0 false
      [.Return (.BinaryOp .Sub (.Symbol "a") (.Symbol "b"))]
      = .ok ({ VMProgram.new with code := VMProgram.new.code
            ++ [MemoryCell.with_data .Load4 (0 % 65536),
                MemoryCell.with_data .Load4 (4 % 65536),
                MemoryCell.plain_inst .SubF32,
                MemoryCell.with_data .Ret (0 % 65536)] }, abLocals, 0, true) :=
  binary_op_order.2 VMProgram.new emptyAst abLocals 0 false "a" "b"
    (MemoryCell.with_data .Load4 (0 % 65536)) (MemoryCell.with_data .Load4 (4 % 65536))
    (by rfl) (by rfl)

/-- The panic of a failed compilation, when there is one. -/
def panicOf : Except Panic VMProgram → Option Panic
  | .error pa => some pa
  | .ok _ => none

/-- A program whose single function returns `a - q` where `a` is an
in-parameter and `q` resolves nowhere. -/
def unresolvedProgram : Program :=
  { in_parameters := [⟨"a", .F32⟩],
    out_parameters := [],
    functions := [⟨"f", [.Return (.BinaryOp .Sub (.Symbol "a") (.Symbol "q"))]⟩] }

/-- Counterexample for C7 as stated: compiling `unresolvedProgram` does abort
naming `q`, but the abort is the `panic!` of the `Expr::Symbol` arm rather
than a structured error value, and at the moment of the abort the load
instruction for `a` — part of the failing statement itself, not of what
preceded it — has already been appended to the stream (the stream preceding
the failing statement was empty). -/
theorem unresolved_symbol_counterexample :
    (panicOf (codegen unresolvedProgram)).map Panic.kind
      = some (.UnknownSymbol "q")
    ∧ (panicOf (codegen unresolvedProgram)).map (fun pa => pa.program.code)
      = some [MemoryCell.with_data .Load4Global (0 % 65536)]
    ∧ [MemoryCell.with_data .Load4Global (0 % 65536)] ≠ ([] : List MemoryCell) := by
  refine ⟨rfl, rfl, by simp⟩

/-- **C7 (amended).** A symbol reference matching neither the local nor the
global table makes `generate_expr` abort with a panic identifying the
offending name (modelled as an error value carrying the panic-time program
state); the panic appends nothing itself, any statement after the failing
one is not processed, and the stream at panic time extends the pre-statement
stream only by cells already emitted for earlier operands of the failing
statement. -/
theorem unknown_symbol_panics :
    (∀ (p : VMProgram) (ast : Program) (fnc : FuncMeta) (s : String),
       tableGet fnc.symbols s = none →
       tableGet p.data.global_symbols s = none →
       generate_expr p ast fnc (.Symbol s) = .error ⟨.UnknownSymbol s, p⟩)
    ∧ (∀ (ast : Program) (p : VMProgram) (fnc : FuncMeta) (so : Nat) (hr : Bool)
       (e : Expr) (rest : List Statement) (pa : Panic) (i : String),
       generate_expr p ast fnc e = .error pa →
       genStatements ast p fnc so hr (.Return e :: rest) = .error pa
       ∧ genStatements ast p fnc so hr (.Assignment i e :: rest) = .error pa)
    ∧ (∀ (e : Expr) (p : VMProgram) (ast : Program) (fnc : FuncMeta) (pa : Panic),
       generate_expr p ast fnc e = .error pa →
       ∃ t, pa.program.code = p.code ++ t) := by
  refine ⟨?_, ?_, ?_⟩
  · intro p ast fnc s h1 h2
    simp [generate_expr, h1, h2]
  · intro ast p fnc so hr e rest pa i hg
    constructor <;> simp only [genStatements, hg]
  · intro e p ast fnc pa hg
    have h := (generate_expr_state e p ast fnc).2
    rw [hg] at h
    exact h

/-- Witness for the amended C7: the lookup misses of a concrete symbol, the
panic it produces, and the untouched stream it carries. -/
theorem unknown_symbol_panics_witness :
    generate_expr VMProgram.new emptyAst (FuncMeta.new 0) (.Symbol "q")
      = .error ⟨.UnknownSymbol "q", VMProgram.new⟩
    ∧ genStatements emptyAst VMProgram.new (FuncMeta.new 0) 0 false
        [.Return (.Symbol "q"), .Return (.Symbol "q")]
      = .error ⟨.UnknownSymbol "q", VMProgram.new⟩ := by
  have h1 := unknown_symbol_panics.1 VMProgram.new emptyAst (FuncMeta.new 0) "q" rfl rfl
  have h2 := (unknown_symbol_panics.2.1 emptyAst VMProgram.new (FuncMeta.new 0) 0 false
    (.Symbol "q") [.Return (.Symbol "q")] ⟨.UnknownSymbol "q", VMProgram.new⟩ "x" h1).1
  exact ⟨h1, h2⟩

/-- **C8.** The entry point either returns the full artifact of `codegen` on
the folded tree, or fails: a folding failure stops compilation before any
code generation and surfaces as the compile failure, and no partial artifact
is ever returned. -/
theorem compile_artifact_or_failure {E : Type} (fold : Program → Except E Program)
    (ast : Program) :
    (∀ e, fold ast = .error e → compile fold ast = .error (.foldingFailure e))
    ∧ (∀ prog, compile fold ast = .ok prog →
       ∃ folded, fold ast = .ok folded ∧ codegen folded = .ok prog) := by
  constructor
  · intro e he
    simp [compile, he]
  · intro prog hok
    simp only [compile] at hok
    split at hok
    · simp at hok
    · rename_i folded hf
      split at hok
      · simp at hok
      · rename_i pr hc
        simp only [Except.ok.injEq] at hok
        subst hok
        exact ⟨folded, hf, hc⟩

/-- Witness for C8: a concrete always-failing fold aborts compilation, and a
concrete identity fold yields the full `codegen` artifact. -/
theorem compile_artifact_or_failure_witness :
    compile (fun _ => (.error () : Except Unit Program)) emptyAst
      = .error (.foldingFailure ())
    ∧ ∃ folded, (fun (p : Program) => (.ok p : Except Unit Program)) emptyAst = .ok folded
        ∧ codegen folded = .ok (stateOf (codegen emptyAst)) :=
  ⟨(compile_artifact_or_failure (fun _ => (.error () : Except Unit Program)) emptyAst).1 () rfl,
   (compile_artifact_or_failure (fun (p : Program) => (.ok p : Except Unit Program)) emptyAst).2
     (stateOf (codegen emptyAst)) (by rfl)⟩

/-- The callee names an expression lowering actually resolves: every
`FuncCall` head in lowered position.  Call arguments are not lowered by
`generate_expr`, so callees inside argument lists are not collected. -/
def loweredCallees : Expr → List String
  | .BinaryOp _ e1 e2 => loweredCallees e1 ++ loweredCallees e2
  | .FuncCall id _ => [id]
  | .Literal _ => []
  | .Symbol _ => []
  | .UnaryOp _ rhs => loweredCallees rhs

/-- The callee names a statement lowering resolves. -/
def stmtCallees : Statement → List String
  | .Assignment _ e => loweredCallees e
  | .Return e => loweredCallees e

/-- A hit in an association table means the key is among the stored keys. -/
theorem tableGet_isSome_mem {α : Type} :
    ∀ (t : List (String × α)) (x : String),
      (tableGet t x).isSome → x ∈ t.map Prod.fst := by
  intro t
  induction t with
  | nil => intro x h; simp [tableGet] at h
  | cons kv rest ih =>
    intro x h
    obtain ⟨k, v⟩ := kv
    simp only [tableGet] at h
    by_cases hx : x = k
    · simp [hx]
    · rw [if_neg hx] at h
      simp [ih x h]

/-- Every callee resolved during a successful expression lowering is present
in the function table the lowering started with. -/
theorem generate_expr_callees :
    ∀ (e : Expr) (p : VMProgram) (ast : Program) (fnc : FuncMeta) (p' : VMProgram),
      generate_expr p ast fnc e = .ok p' →
      ∀ id ∈ loweredCallees e, (tableGet p.data.functions id).isSome
  | .BinaryOp op e1 e2, p, ast, fnc, p' => by
    intro hok id hid
    simp only [generate_expr] at hok
    split at hok
    · simp at hok
    · rename_i p1 hg1
      split at hok
      · simp at hok
      · rename_i p2 hg2
        have hd1 := (generate_expr_state e1 p ast fnc).1
        rw [hg1] at hd1
        simp only [stateOf] at hd1
        simp only [loweredCallees, List.mem_append] at hid
        rcases hid with hid | hid
        · exact generate_expr_callees e1 p ast fnc p1 hg1 id hid
        · have := generate_expr_callees e2 p1 ast fnc p2 hg2 id hid
          rwa [hd1] at this
  | .FuncCall id0 args, p, ast, fnc, p' => by
    intro hok id hid
    simp only [generate_expr] at hok
    split at hok
    · simp at hok
    · rename_i fm hf
      simp only [loweredCallees, List.mem_singleton] at hid
      subst hid
      simp [hf]
  | .Literal l, p, ast, fnc, p' => by
    intro _ id hid
    simp [loweredCallees] at hid
  | .Symbol s, p, ast, fnc, p' => by
    intro _ id hid
    simp [loweredCallees] at hid
  | .UnaryOp .Sub rhs, p, ast, fnc, p' => by
    intro hok id hid
    simp only [generate_expr] at hok
    split at hok
    · simp at hok
    · rename_i p1 hg1
      simp only [loweredCallees] at hid
      exact generate_expr_callees rhs p ast fnc p1 hg1 id hid

/-- Every callee resolved during a successful statement run is present in
the function table the run started with. -/
theorem genStatements_callees :
    ∀ (stmts : List Statement) (ast : Program) (p : VMProgram) (fnc : FuncMeta)
      (so : Nat) (hr : Bool) (res : VMProgram × FuncMeta × Nat × Bool),
      genStatements ast p fnc so hr stmts = .ok res →
      ∀ s ∈ stmts, ∀ id ∈ stmtCallees s, (tableGet p.data.functions id).isSome := by
  intro stmts
  induction stmts with
  | nil => intro ast p fnc so hr res _ s hs; simp at hs
  | cons s0 rest ih =>
    intro ast p fnc so hr res hok s hs
    cases s0 with
    | Assignment i expr =>
      simp only [genStatements] at hok
      split at hok
      · simp at hok
      · rename_i p1 hg
        have hd1 := (generate_expr_state expr p ast fnc).1
        rw [hg] at hd1
        simp only [stateOf] at hd1
        rcases List.mem_cons.mp hs with rfl | hs'
        · exact fun id hid => generate_expr_callees expr p ast fnc p1 hg id hid
        · split at hok
          · rename_i o hl
            intro id hid
            have := ih ast (p1.push (MemoryCell.with_data .Mov4Global (o.offset % 65536)))
              fnc so hr res hok s hs' id hid
            simpa [VMProgram.push, hd1] using this
          · rename_i hl
            intro id hid
            have := ih ast p1
              { fnc with symbols := (i, ⟨so, false, .F32⟩) :: fnc.symbols }
              (so + 4) hr res hok s hs' id hid
            rwa [hd1] at this
    | Return expr =>
      simp only [genStatements] at hok
      split at hok
      · simp at hok
      · rename_i p1 hg
        have hd1 := (generate_expr_state expr p ast fnc).1
        rw [hg] at hd1
        simp only [stateOf] at hd1
        rcases List.mem_cons.mp hs with rfl | hs'
        · exact fun id hid => generate_expr_callees expr p ast fnc p1 hg id hid
        · intro id hid
          have := ih ast (p1.push (MemoryCell.with_data .Ret (so % 65536)))
            fnc so true res hok s hs' id hid
          simpa [VMProgram.push, hd1] using this

/-- Over a whole function list, every callee resolved while generating the
`k`-th function was either already in the incoming table or is one of the
first `k` functions — the ones whose generation has completed. -/
theorem genFunctions_callees :
    ∀ (fs : List Function) (ast : Program) (p : VMProgram) (p' : VMProgram),
      genFunctions ast p fs = .ok p' →
      ∀ (k : Nat) (f : Function), fs.get? k = some f →
      ∀ s ∈ f.statements, ∀ id ∈ stmtCallees s,
        id ∈ p.data.functions.map Prod.fst ++ (fs.take k).map Function.ident := by
  intro fs
  induction fs with
  | nil => intro ast p p' _ k f hget; simp at hget
  | cons f0 rest ih =>
    intro ast p p' hok k f hget
    simp only [genFunctions] at hok
    split at hok
    · simp at hok
    · rename_i p1 heq
      cases k with
      | zero =>
        simp only [List.get?] at hget
        obtain rfl : f0 = f := by simpa using hget
        intro s hs id hid
        simp only [genFunction] at heq
        split at heq
        · simp at heq
        · rename_i q1 fm so hret hrun
          have := genStatements_callees f0.statements ast p
            (FuncMeta.new p.code.length) 0 false (q1, fm, so, hret) hrun s hs id hid
          simp [tableGet_isSome_mem _ _ this]
      | succ k' =>
        simp only [List.get?] at hget
        obtain ⟨_, _, _, fm, hfuncs⟩ := genFunction_data ast p f0 p1 heq
        intro s hs id hid
        have := ih ast p1 p' hok k' f hget s hs id hid
        rw [hfuncs] at this
        simp only [List.map_cons, List.mem_append, List.mem_cons] at this
        simp only [List.take, List.map_cons, List.mem_append, List.mem_cons]
        tauto

/-- In a duplicate-free list, the element at index `k` does not occur among
the first `k` elements. -/
theorem nodup_not_mem_take :
    ∀ (l : List String) (k : Nat) (a : String),
      l.Nodup → l.get? k = some a → a ∉ l.take k := by
  intro l
  induction l with
  | nil => intro k a _ h; simp at h
  | cons x rest ih =>
    intro k a hnd h
    cases k with
    | zero => simp [List.take]
    | succ k' =>
      simp only [List.get?] at h
      simp only [List.take, List.mem_cons]
      rintro (rfl | hmem)
      · exact (List.nodup_cons.mp hnd).1 (List.get?_mem h)
      · exact ih k' a (List.nodup_cons.mp hnd).2 h hmem

/-- **C9.** A call can only be lowered after the callee's generation has
completed: a callee absent from the function table panics at the call site
with no `Call` instruction emitted; a function's `FuncMeta` enters the table
only once its statements are fully generated; hence in any successful
compilation every lowered call inside the `k`-th function names one of the
first `k` functions, and (with distinct function names) never the enclosing
function itself. -/
theorem call_requires_completed_callee :
    (∀ (p : VMProgram) (ast : Program) (fnc : FuncMeta) (id : String) (args : List Expr),
       tableGet p.data.functions id = none →
       generate_expr p ast fnc (.FuncCall id args) = .error ⟨.UnresolvedFunction id, p⟩)
    ∧ (∀ (ast : Program) (p : VMProgram) (f : Function) (p' : VMProgram),
       genFunction ast p f = .ok p' →
       ∃ fm, p'.data.functions = (f.ident, fm) :: p.data.functions)
    ∧ (∀ (ast : Program) (prog : VMProgram), codegen ast = .ok prog →
       ∀ (k : Nat) (f : Function), ast.functions.get? k = some f →
       ∀ s ∈ f.statements, ∀ id ∈ stmtCallees s,
         id ∈ (ast.functions.take k).map Function.ident)
    ∧ (∀ (ast : Program) (prog : VMProgram), codegen ast = .ok prog →
       (ast.functions.map Function.ident).Nodup →
       ∀ (k : Nat) (f : Function), ast.functions.get? k = some f →
       ∀ s ∈ f.statements, f.ident ∉ stmtCallees s) := by
  have h3 : ∀ (ast : Program) (prog : VMProgram), codegen ast = .ok prog →
      ∀ (k : Nat) (f : Function), ast.functions.get? k = some f →
      ∀ s ∈ f.statements, ∀ id ∈ stmtCallees s,
        id ∈ (ast.functions.take k).map Function.ident := by
    intro ast prog hok k f hget s hs id hid
    simp only [codegen] at hok
    split at hok
    · simp at hok
    · rename_i p1 heq
      have := genFunctions_callees ast.functions ast _ p1 heq k f hget s hs id hid
      simpa [VMProgram.new, ProgramData.new] using this
  refine ⟨?_, ?_, h3, ?_⟩
  · intro p ast fnc id args hnone
    simp [generate_expr, hnone]
  · intro ast p f p' hok
    exact (genFunction_data ast p f p' hok).2.2.2
  · intro ast prog hok hnd k f hget s hs hmem
    have hidx : (ast.functions.map Function.ident).get? k = some f.ident := by
      rw [List.get?_map, hget]
      rfl
    have htake := h3 ast prog hok k f hget s hs f.ident hmem
    rw [List.map_take] at htake
    exact nodup_not_mem_take (ast.functions.map Function.ident) k f.ident hnd hidx htake

/-- Two functions where the second calls the first (declared earlier), for
the C9 witness. -/
def callProgram : Program :=
  ⟨[], [], [⟨"g", []⟩, ⟨"f", [.Return (.FuncCall "g" [])]⟩]⟩

/-- Witness for C9: a call with an absent callee panics at the call site,
and in the successfully compiled `callProgram` the call inside the second
function names the first (already generated) function. -/
theorem call_requires_completed_callee_witness :
    generate_expr VMProgram.new emptyAst (FuncMeta.new 0) (.FuncCall "g" [])
      = .error ⟨.UnresolvedFunction "g", VMProgram.new⟩
    ∧ "g" ∈ (callProgram.functions.take 1).map Function.ident :=
  ⟨call_requires_completed_callee.1 VMProgram.new emptyAst (FuncMeta.new 0) "g" [] rfl,
   call_requires_completed_callee.2.2.1 callProgram (stateOf (codegen callProgram)) (by rfl)
     1 ⟨"f", [.Return (.FuncCall "g" [])]⟩ (by rfl)
     (.Return (.FuncCall "g" [])) (by simp) "g" (by simp [stmtCallees, loweredCallees])⟩

/-- The decoded immediate of a `with_data` word whose payload is already
below 2^16 is that payload. -/
theorem get_inst_imm (op : OpCode) (d : Nat) (hd : d < 65536) :
    (MemoryCell.get_inst (MemoryCell.with_data op d)).2 = d := by
  have ht := opTag_lt op
  simp only [MemoryCell.get_inst, MemoryCell.with_data]
  rw [Nat.add_mul_div_right _ _ (by norm_num : 0 < 65536), Nat.div_eq_of_lt ht,
    Nat.zero_add, Nat.mod_eq_of_lt hd]

/-- **C10.** Every offset or address placed into an immediate field — local
load offset, call target address, global store offset, return frame size —
is narrowed with the `as u16` cast before encoding: for any value `v ≥
2^16` the instruction is emitted without error and its decoded immediate is
`v % 2^16`. -/
theorem immediate_truncation :
    (∀ (p : VMProgram) (ast : Program) (fnc : FuncMeta) (s : String) (m : SymbolMeta),
       tableGet fnc.symbols s = some m → 65536 ≤ m.offset →
       generate_expr p ast fnc (.Symbol s)
         = .ok (p.push (MemoryCell.with_data .Load4 (m.offset % 65536)))
       ∧ (MemoryCell.get_inst (MemoryCell.with_data .Load4 (m.offset % 65536))).2
           = m.offset % 65536)
    ∧ (∀ (p : VMProgram) (ast : Program) (fnc : FuncMeta) (id : String)
       (args : List Expr) (fm : FuncMeta),
       tableGet p.data.functions id = some fm → 65536 ≤ fm.address →
       generate_expr p ast fnc (.FuncCall id args)
         = .ok (p.push (MemoryCell.with_data .Call (fm.address % 65536)))
       ∧ (MemoryCell.get_inst (MemoryCell.with_data .Call (fm.address % 65536))).2
           = fm.address % 65536)
    ∧ (∀ (p : VMProgram) (ast : Program) (fnc : FuncMeta) (so : Nat) (hr : Bool)
       (i : String) (e : Expr) (p1 : VMProgram) (o : SymbolMeta),
       generate_expr p ast fnc e = .ok p1 →
       tableGet p1.data.global_symbols i = some o → 65536 ≤ o.offset →
       genStatements ast p fnc so hr [.Assignment i e]
         = .ok (p1.push (MemoryCell.with_data .Mov4Global (o.offset % 65536)), fnc, so, hr)
       ∧ (MemoryCell.get_inst (MemoryCell.with_data .Mov4Global (o.offset % 65536))).2
           = o.offset % 65536)
    ∧ (∀ (p : VMProgram) (ast : Program) (fnc : FuncMeta) (so : Nat) (hr : Bool)
       (e : Expr) (p1 : VMProgram),
       generate_expr p ast fnc e = .ok p1 → 65536 ≤ so →
       genStatements ast p fnc so hr [.Return e]
         = .ok (p1.push (MemoryCell.with_data .Ret (so % 65536)), fnc, so, true)
       ∧ (MemoryCell.get_inst (MemoryCell.with_data .Ret (so % 65536))).2
           = so % 65536) := by
  refine ⟨?_, ?_, ?_, ?_⟩
  · intro p ast fnc s m hl _
    exact ⟨by simp [generate_expr, hl],
      get_inst_imm _ _ (Nat.mod_lt _ (by norm_num))⟩
  · intro p ast fnc id args fm hf _
    exact ⟨by simp [generate_expr, hf],
      get_inst_imm _ _ (Nat.mod_lt _ (by norm_num))⟩
  · intro p ast fnc so hr i e p1 o hg hl _
    refine ⟨?_, get_inst_imm _ _ (Nat.mod_lt _ (by norm_num))⟩
    rw [genStatements_assign_global ast p fnc so hr i e [] p1 o hg hl]
    rfl
  · intro p ast fnc so hr e p1 hg _
    refine ⟨?_, get_inst_imm _ _ (Nat.mod_lt _ (by norm_num))⟩
    rw [genStatements_return ast p fnc so hr e [] p1 hg]
    rfl

/-- A local table whose single binding has an offset above 2^16, for the C10
witness. -/
def bigOffsetLocals : FuncMeta :=
  ⟨0, [("x", ⟨70000, false, .F32⟩)]⟩

/-- Witness for C10: offset 70000 is emitted truncated to `70000 % 65536 =
4464` with no error. -/
theorem immediate_truncation_witness :
    generate_expr VMProgram.new emptyAst bigOffsetLocals (.Symbol "x")
      = .ok (VMProgram.new.push (MemoryCell.with_data .Load4 (70000 % 65536)))
    ∧ (MemoryCell.get_inst (MemoryCell.with_data .Load4 (70000 % 65536))).2
        = 70000 % 65536 :=
  immediate_truncation.1 VMProgram.new emptyAst bigOffsetLocals "x"
    ⟨70000, false, .F32⟩ rfl (by norm_num)

end Shadelang
